import Mathlib

/-!
# Verification of the dependency-change miner

Shallow embedding of `scripts/dependency-miner.py`:

* `pyStrip` models Python `str.strip()` (default whitespace).
* `searchTag` models `re.search(r"<tag>([^<]+)</tag>", block)` for a fixed
  literal tag pair: the leftmost position where the opening tag matches, the
  capture being the maximal nonempty run of non-`<` characters followed
  immediately by the closing tag.
* `findAllBlocks` models
  `re.findall(r"<dependency>(.*?)</dependency>", text, re.DOTALL)`:
  repeatedly take the leftmost opening tag, the nearest closing tag after it
  (non-greedy interior), and continue after the closing tag.
* `parseDependencyBlocks` models `_parse_dependency_blocks` (the operative,
  tolerant-scan parser wired into the pipeline).
* `processPair`, `processFile`, `processCommit`, `mine_repository` model the
  accumulation loops of `mine_repository` (lines 107-132): `rows` is the
  event list, `seen` the touched-commit set (kept as a duplicate-free list).

All definitions are total and executable; the Python code raises no
exceptions on any text input, which the embedding reflects by returning a
snapshot for every input.
-/

set_option maxRecDepth 10000

namespace DependencyMiner

/-- Python's default whitespace set used by `str.strip()`:
space, tab, newline, carriage return, vertical tab, form feed. -/
def pySpace (c : Char) : Bool :=
  c = ' ' || c = '\t' || c = '\n' || c = '\r' || c.toNat = 11 || c.toNat = 12

/-- Python `str.strip()`: remove leading and trailing whitespace. -/
def pyStrip (l : List Char) : List Char :=
  ((l.dropWhile pySpace).reverse.dropWhile pySpace).reverse

/-- `.strip()` packaged back into a `String`, as used on every captured value. -/
def strS (l : List Char) : String := String.mk (pyStrip l)

def depOpenTag : List Char := "<dependency>".data

def depCloseTag : List Char := "</dependency>".data

def groupOpenTag : List Char := "<groupId>".data

def groupCloseTag : List Char := "</groupId>".data

def artifactOpenTag : List Char := "<artifactId>".data

def artifactCloseTag : List Char := "</artifactId>".data

def versionOpenTag : List Char := "<version>".data

def versionCloseTag : List Char := "</version>".data

/-- `re.search(r"<tag>([^<]+)</tag>", s)`: scan for the leftmost position
where `tagO` matches; the capture `[^<]+` is the maximal nonempty run of
non-`<` characters after it, and `tagC` must follow immediately (backtracking
the capture cannot help because the closing tag starts with `<`).  Returns
the captured group. -/
def searchTag (tagO tagC : List Char) : List Char → Option (List Char)
  | [] => none
  | c :: rest =>
    if tagO.isPrefixOf (c :: rest) then
      let tl := (c :: rest).drop tagO.length
      let cap := tl.takeWhile (fun x => x ≠ '<')
      if cap ≠ [] ∧ tagC.isPrefixOf (tl.drop cap.length) then some cap
      else searchTag tagO tagC rest
    else searchTag tagO tagC rest

/-- Index of the first occurrence of the literal pattern `pat` in `s`. -/
def indexOfPat (pat : List Char) : List Char → Option Nat
  | [] => none
  | c :: rest =>
    if pat.isPrefixOf (c :: rest) then some 0
    else (indexOfPat pat rest).map (· + 1)

/-- `re.findall(r"<dependency>(.*?)</dependency>", s, re.DOTALL)`: each match
starts at the leftmost remaining opening tag, the non-greedy interior runs to
the nearest closing tag, and scanning resumes after the closing tag.  The
fuel `s.length + 1` is sufficient since every match consumes at least one
character. -/
def findAllBlocksAux : Nat → List Char → List (List Char)
  | 0, _ => []
  | fuel + 1, s =>
    match indexOfPat depOpenTag s with
    | none => []
    | some i =>
      let t := s.drop (i + depOpenTag.length)
      match indexOfPat depCloseTag t with
      | none => []
      | some j => t.take j :: findAllBlocksAux fuel (t.drop (j + depCloseTag.length))

def findAllBlocks (s : List Char) : List (List Char) :=
  findAllBlocksAux (s.length + 1) s

/-- The composite dependency key `f"{group}:{artifact}"`. -/
def mkKey (g a : String) : String := g ++ ":" ++ a

/-- One `<dependency>` block's contribution: the three inner searches, kept
only when all three match (`if g and a and v:`), with every captured value
stripped. -/
def blockEntry (block : List Char) : Option (String × String) :=
  match searchTag groupOpenTag groupCloseTag block,
        searchTag artifactOpenTag artifactCloseTag block,
        searchTag versionOpenTag versionCloseTag block with
  | some g, some a, some v => some (mkKey (strS g) (strS a), strS v)
  | _, _, _ => none

/-- Python `deps[key] = v` on an insertion-ordered dict, modelled as an
association list with unique keys: update the existing entry in place,
otherwise append at the end. -/
def dictInsert : List (String × String) → String → String → List (String × String)
  | [], k, v => [(k, v)]
  | p :: rest, k, v => if p.1 = k then (k, v) :: rest else p :: dictInsert rest k v

/-- `_parse_dependency_blocks`: `None` or whitespace-only text yields the
empty snapshot; otherwise every `<dependency>` block that has a groupId, an
artifactId and a version contributes `deps[key] = version`. -/
def parseDependencyBlocks (pomXmlText : Option String) : List (String × String) :=
  match pomXmlText with
  | none => []
  | some s =>
    if (pyStrip s.data).isEmpty then []
    else
      (findAllBlocks s.data).foldl
        (fun deps block =>
          match blockEntry block with
          | some kv => dictInsert deps kv.1 kv.2
          | none => deps) []

/-- Dict lookup `m[k]` / membership `k in m`. -/
def snapLookup (m : List (String × String)) (k : String) : Option String :=
  (m.find? (fun p => p.1 == k)).map (·.2)

/-- The key set of a snapshot. -/
def snapKeys (m : List (String × String)) : List String := m.map (·.1)

/-- One row appended to `rows`: `(commit.hash, commit.author_date,
commit.author.name, key, change description)`. -/
structure ChangeEvent where
  hash : String
  date : String
  author : String
  key : String
  change : String
deriving DecidableEq, Repr

/-- A modified file as exposed by the commit-walker collaborator: its path,
the pre-commit text (`None` if the file did not exist) and the post-commit
text (`None` if deleted). -/
structure MFile where
  path : String
  source_code_before : Option String
  source_code : Option String
deriving DecidableEq, Repr

/-- A commit as exposed by the commit-walker collaborator. -/
structure Commit where
  hash : String
  author_date : String
  author_name : String
  modified_files : List MFile
deriving DecidableEq, Repr

/-- The accumulator of `mine_repository`: the `rows` list and the `seen`
set of touched commit hashes (a duplicate-free list in insertion order). -/
structure MiningState where
  rows : List ChangeEvent
  seen : List String
deriving DecidableEq, Repr

/-- PyDriller's `ModifiedFile.filename`: the final component of the file
path (the basename), not the full path. -/
def basenameChars (p : List Char) : List Char :=
  (p.reverse.takeWhile (fun c => c ≠ '/')).reverse

def filenameOf (p : String) : String := String.mk (basenameChars p.data)

/-- `seen.add(h)`: set-insert, idempotent on repeat insertion. -/
def seenInsert (s : List String) (h : String) : List String :=
  if h ∈ s then s else s ++ [h]

/-- The body of the first loop (`for k in after:`): `added` when the key is
absent from `before`, `changed from X to Y` when the versions differ,
nothing otherwise.  `str()` on a string value is the identity. -/
def eventOfAfter (h d a : String) (before : List (String × String))
    (kv : String × String) : Option ChangeEvent :=
  match snapLookup before kv.1 with
  | none => some ⟨h, d, a, kv.1, "added"⟩
  | some vb =>
    if vb ≠ kv.2 then some ⟨h, d, a, kv.1, "changed from " ++ vb ++ " to " ++ kv.2⟩
    else none

/-- The body of the second loop (`for k in before:`): `removed` when the key
is absent from `after`. -/
def eventOfBefore (h d a : String) (after : List (String × String))
    (kv : String × String) : Option ChangeEvent :=
  match snapLookup after kv.1 with
  | none => some ⟨h, d, a, kv.1, "removed"⟩
  | some _ => none

/-- One classification loop: for each key, append the produced row (if any)
to `rows` and add the commit hash to `seen`. -/
def foldEmit (h : String) (f : String × String → Option ChangeEvent)
    (st : MiningState) (l : List (String × String)) : MiningState :=
  l.foldl (fun st kv =>
    match f kv with
    | some e => ⟨st.rows ++ [e], seenInsert st.seen h⟩
    | none => st) st

/-- Both classification loops for one (before, after) snapshot pair: the
`after` keys first, then the keys unique to `before`. -/
def processPair (h d a : String) (st : MiningState)
    (before after : List (String × String)) : MiningState :=
  foldEmit h (eventOfBefore h d a after)
    (foldEmit h (eventOfAfter h d a before) st after) before

/-- `for f in commit.modified_files:` body — the `f.filename != "pom.xml":
continue` guard, then parse both sides (`or {}` on a dict result is the
identity) and classify. -/
def processFile (h d a : String) (st : MiningState) (f : MFile) : MiningState :=
  if filenameOf f.path = "pom.xml" then
    processPair h d a st (parseDependencyBlocks f.source_code_before)
      (parseDependencyBlocks f.source_code)
  else st

def processCommit (st : MiningState) (c : Commit) : MiningState :=
  c.modified_files.foldl (processFile c.hash c.author_date c.author_name) st

/-- The accumulation core of `mine_repository`, over the commit sequence
supplied by the commit-walker collaborator. -/
def mine_repository (commits : List Commit) : MiningState :=
  commits.foldl processCommit ⟨[], []⟩

/-- The pure per-pair event list produced by the two classification loops
(the rows they append, in order: `after`-iteration first, then the keys
unique to `before`). -/
def classify (h d a : String) (before after : List (String × String)) :
    List ChangeEvent :=
  after.filterMap (eventOfAfter h d a before) ++ before.filterMap (eventOfBefore h d a after)

/-- The events of a list that concern one key. -/
def eventsFor (l : List ChangeEvent) (k : String) : List ChangeEvent :=
  l.filter (fun e => e.key == k)

/-- The rows one modified file contributes. -/
def fileRows (h d a : String) (f : MFile) : List ChangeEvent :=
  if filenameOf f.path = "pom.xml" then
    classify h d a (parseDependencyBlocks f.source_code_before)
      (parseDependencyBlocks f.source_code)
  else []

/-- The rows one commit contributes. -/
def commitRows (c : Commit) : List ChangeEvent :=
  c.modified_files.flatMap (fileRows c.hash c.author_date c.author_name)

/-- The rows of a whole traversal, in commit order. -/
def mineRows (commits : List Commit) : List ChangeEvent :=
  commits.flatMap commitRows

/-- The key/version pairs of the blocks of a manifest, in document order
(before dict collapsing). -/
def parseEntries (s : String) : List (String × String) :=
  if (pyStrip s.data).isEmpty then [] else (findAllBlocks s.data).filterMap blockEntry

/-- The version of the last block (in document order) that yields key `k`. -/
def lastEntryVal (entries : List (String × String)) (k : String) : Option String :=
  (entries.reverse.find? (fun kv => kv.1 == k)).map (·.2)

/-! ## Helper lemmas on the accumulator -/

theorem seenInsert_idem (s : List String) (h : String) :
    seenInsert (seenInsert s h) h = seenInsert s h := by
  unfold seenInsert
  by_cases hs : h ∈ s
  · simp [hs]
  · simp [hs]

theorem mem_seenInsert (s : List String) (h x : String) :
    x ∈ seenInsert s h ↔ x ∈ s ∨ x = h := by
  unfold seenInsert
  by_cases hs : h ∈ s
  · simp only [if_pos hs]
    constructor
    · exact Or.inl
    · rintro (hx | rfl)
      · exact hx
      · exact hs
  · simp [if_neg hs]

theorem foldEmit_eq (h : String) (f : String × String → Option ChangeEvent)
    (l : List (String × String)) (st : MiningState) :
    foldEmit h f st l =
      ⟨st.rows ++ l.filterMap f,
       if l.filterMap f = [] then st.seen else seenInsert st.seen h⟩ := by
  induction l generalizing st with
  | nil => simp [foldEmit]
  | cons kv l ih =>
    cases hf : f kv with
    | none =>
      have hstep : foldEmit h f st (kv :: l) = foldEmit h f st l := by
        simp [foldEmit, hf]
      rw [hstep, ih, List.filterMap_cons_none hf]
    | some e =>
      have hstep : foldEmit h f st (kv :: l) =
          foldEmit h f ⟨st.rows ++ [e], seenInsert st.seen h⟩ l := by
        simp [foldEmit, hf]
      rw [hstep, ih, List.filterMap_cons_some hf]
      simp only [MiningState.mk.injEq]
      refine ⟨by simp, ?_⟩
      by_cases he : l.filterMap f = [] <;> simp [he, seenInsert_idem]

theorem processPair_eq (h d a : String) (st : MiningState)
    (before after : List (String × String)) :
    processPair h d a st before after =
      ⟨st.rows ++ classify h d a before after,
       if classify h d a before after = [] then st.seen
       else seenInsert st.seen h⟩ := by
  unfold processPair classify
  rw [foldEmit_eq, foldEmit_eq]
  simp only [MiningState.mk.injEq, List.append_eq_nil]
  refine ⟨by simp, ?_⟩
  by_cases hA : after.filterMap (eventOfAfter h d a before) = [] <;>
    by_cases hB : before.filterMap (eventOfBefore h d a after) = [] <;>
      simp [hA, hB, seenInsert_idem]

theorem processFile_eq (h d a : String) (st : MiningState) (f : MFile) :
    processFile h d a st f =
      ⟨st.rows ++ fileRows h d a f,
       if fileRows h d a f = [] then st.seen else seenInsert st.seen h⟩ := by
  unfold processFile fileRows
  by_cases hf : filenameOf f.path = "pom.xml"
  · simp only [if_pos hf]
    exact processPair_eq ..
  · simp [if_neg hf]

theorem processCommit_eq (st : MiningState) (c : Commit) :
    processCommit st c =
      ⟨st.rows ++ commitRows c,
       if commitRows c = [] then st.seen else seenInsert st.seen c.hash⟩ := by
  unfold processCommit commitRows
  generalize c.modified_files = fs
  induction fs generalizing st with
  | nil => simp
  | cons f fs ih =>
    rw [List.foldl_cons, processFile_eq, ih]
    simp only [List.flatMap_cons, MiningState.mk.injEq, List.append_eq_nil]
    refine ⟨by simp, ?_⟩
    by_cases hA : fileRows c.hash c.author_date c.author_name f = [] <;>
      by_cases hB : fs.flatMap (fileRows c.hash c.author_date c.author_name) = [] <;>
        simp [hA, hB, seenInsert_idem]

theorem foldl_processCommit_rows (commits : List Commit) (st : MiningState) :
    (commits.foldl processCommit st).rows = st.rows ++ mineRows commits := by
  induction commits generalizing st with
  | nil => simp [mineRows]
  | cons c cs ih =>
    rw [List.foldl_cons, ih, processCommit_eq]
    simp [mineRows]

theorem mine_rows (commits : List Commit) :
    (mine_repository commits).rows = mineRows commits := by
  unfold mine_repository
  rw [foldl_processCommit_rows]
  rfl

/-! ## Shape of the emitted events -/

theorem eventOfAfter_shape (h d a : String) (b : List (String × String))
    (kv : String × String) (e : ChangeEvent)
    (he : eventOfAfter h d a b kv = some e) : e.hash = h ∧ e.key = kv.1 := by
  unfold eventOfAfter at he
  split at he
  · cases he; exact ⟨rfl, rfl⟩
  · split at he
    · cases he; exact ⟨rfl, rfl⟩
    · cases he

theorem eventOfBefore_shape (h d a : String) (aft : List (String × String))
    (kv : String × String) (e : ChangeEvent)
    (he : eventOfBefore h d a aft kv = some e) :
    e.hash = h ∧ e.key = kv.1 ∧ e.change = "removed" := by
  unfold eventOfBefore at he
  split at he
  · cases he; exact ⟨rfl, rfl, rfl⟩
  · cases he

theorem mem_classify_cases (h d a : String) (b aft : List (String × String))
    (e : ChangeEvent) (he : e ∈ classify h d a b aft) :
    (∃ kv ∈ aft, eventOfAfter h d a b kv = some e) ∨
      (∃ kv ∈ b, eventOfBefore h d a aft kv = some e) := by
  unfold classify at he
  rcases List.mem_append.mp he with hm | hm
  · exact Or.inl (by simpa using List.mem_filterMap.mp hm)
  · exact Or.inr (by simpa using List.mem_filterMap.mp hm)

theorem classify_hash (h d a : String) (b aft : List (String × String))
    (e : ChangeEvent) (he : e ∈ classify h d a b aft) : e.hash = h := by
  rcases mem_classify_cases h d a b aft e he with ⟨kv, _, hkv⟩ | ⟨kv, _, hkv⟩
  · exact (eventOfAfter_shape h d a b kv e hkv).1
  · exact (eventOfBefore_shape h d a aft kv e hkv).1

theorem classify_key_mem (h d a : String) (b aft : List (String × String))
    (e : ChangeEvent) (he : e ∈ classify h d a b aft) :
    e.key ∈ snapKeys b ∨ e.key ∈ snapKeys aft := by
  rcases mem_classify_cases h d a b aft e he with ⟨kv, hkv, hsome⟩ | ⟨kv, hkv, hsome⟩
  · exact Or.inr ((eventOfAfter_shape h d a b kv e hsome).2 ▸ List.mem_map_of_mem _ hkv)
  · exact Or.inl ((eventOfBefore_shape h d a aft kv e hsome).2.1 ▸ List.mem_map_of_mem _ hkv)

theorem commitRows_hash (c : Commit) (e : ChangeEvent) (he : e ∈ commitRows c) :
    e.hash = c.hash := by
  unfold commitRows at he
  obtain ⟨f, _, hf⟩ := List.mem_flatMap.mp he
  unfold fileRows at hf
  split at hf
  · exact classify_hash _ _ _ _ _ _ hf
  · cases hf

theorem exists_hash_commitRows (c : Commit) (x : String) :
    (∃ e ∈ commitRows c, e.hash = x) ↔ (commitRows c ≠ [] ∧ x = c.hash) := by
  constructor
  · rintro ⟨e, he, hx⟩
    refine ⟨List.ne_nil_of_mem he, ?_⟩
    rw [← hx, commitRows_hash c e he]
  · rintro ⟨hne, rfl⟩
    exact ⟨(commitRows c).head hne, List.head_mem hne,
      commitRows_hash c _ (List.head_mem hne)⟩

theorem foldl_processCommit_seen (commits : List Commit) (st : MiningState)
    (x : String) :
    x ∈ (commits.foldl processCommit st).seen ↔
      x ∈ st.seen ∨ ∃ e ∈ mineRows commits, e.hash = x := by
  induction commits generalizing st with
  | nil => simp [mineRows]
  | cons c cs ih =>
    rw [List.foldl_cons, ih, processCommit_eq]
    simp only [mineRows, List.flatMap_cons]
    constructor
    · rintro (hs | he)
      · by_cases hc : commitRows c = []
        · rw [if_pos hc] at hs
          exact Or.inl hs
        · rw [if_neg hc] at hs
          rcases (mem_seenInsert _ _ _).mp hs with hs | rfl
          · exact Or.inl hs
          · exact Or.inr ⟨(commitRows c).head hc,
              List.mem_append.mpr (Or.inl (List.head_mem hc)),
              commitRows_hash c _ (List.head_mem hc)⟩
      · obtain ⟨e, hmem, hx⟩ := he
        exact Or.inr ⟨e, List.mem_append.mpr (Or.inr hmem), hx⟩
    · rintro (hs | ⟨e, hmem, hx⟩)
      · refine Or.inl ?_
        by_cases hc : commitRows c = []
        · rw [if_pos hc]; exact hs
        · rw [if_neg hc]; exact (mem_seenInsert _ _ _).mpr (Or.inl hs)
      · rcases List.mem_append.mp hmem with hm | hm
        · refine Or.inl ?_
          have hne : commitRows c ≠ [] := List.ne_nil_of_mem hm
          rw [if_neg hne]
          exact (mem_seenInsert _ _ _).mpr
            (Or.inr (hx ▸ (commitRows_hash c e hm).symm).symm)
        · exact Or.inr ⟨e, hm, hx⟩

theorem mine_seen_mem (commits : List Commit) (x : String) :
    x ∈ (mine_repository commits).seen ↔ ∃ e ∈ mineRows commits, e.hash = x := by
  unfold mine_repository
  rw [foldl_processCommit_seen]
  simp

/-! ## Per-key characterization of the classifier -/

theorem snapLookup_eq_none (m : List (String × String)) (k : String) :
    snapLookup m k = none ↔ k ∉ snapKeys m := by
  unfold snapLookup snapKeys
  rw [Option.map_eq_none', List.find?_eq_none]
  constructor
  · intro hall hmem
    obtain ⟨x, hx, hxk⟩ := List.mem_map.mp hmem
    have h2 := hall x hx
    simp only [beq_iff_eq] at h2
    exact h2 hxk
  · intro hno x hx
    simp only [beq_iff_eq]
    intro hxk
    exact hno (List.mem_map.mpr ⟨x, hx, hxk⟩)

theorem filter_fst_eq_nil (m : List (String × String)) (k : String)
    (hk : k ∉ snapKeys m) : m.filter (fun kv => kv.1 == k) = [] := by
  induction m with
  | nil => rfl
  | cons p m ih =>
    simp only [snapKeys, List.map_cons, List.mem_cons, not_or] at hk
    have hp : (p.1 == k) = false := by
      simp only [beq_eq_false_iff_ne, ne_eq]
      exact fun hc => hk.1 hc.symm
    rw [List.filter_cons, hp]
    simp only [Bool.false_eq_true, if_false]
    exact ih (by simpa [snapKeys] using hk.2)

theorem filter_fst_of_nodup (m : List (String × String))
    (hm : (snapKeys m).Nodup) (k : String) :
    m.filter (fun kv => kv.1 == k) =
      (match snapLookup m k with
       | some v => [(k, v)]
       | none => []) := by
  induction m with
  | nil => rfl
  | cons p m ih =>
    simp only [snapKeys, List.map_cons, List.nodup_cons] at hm
    by_cases hpk : p.1 = k
    · have hb : (p.1 == k) = true := by simp [hpk]
      have hnil : m.filter (fun kv => kv.1 == k) = [] := by
        refine filter_fst_eq_nil m k ?_
        intro hmem
        exact hm.1 (hpk ▸ (by simpa [snapKeys] using hmem))
      rw [List.filter_cons, hb]
      simp only [if_true]
      rw [hnil]
      have hl : snapLookup (p :: m) k = some p.2 := by
        simp [snapLookup, List.find?_cons, hb]
      rw [hl]
      have hpe : p = (k, p.2) := by
        cases p
        simp_all
      show [p] = [(k, p.2)]
      rw [hpe]
    · have hb : (p.1 == k) = false := by simp [hpk]
      rw [List.filter_cons, hb]
      simp only [Bool.false_eq_true, if_false]
      have hl : snapLookup (p :: m) k = snapLookup m k := by
        simp [snapLookup, List.find?_cons, hb]
      rw [hl]
      exact ih (by simpa [snapKeys] using hm.2)

theorem eventsFor_append (l1 l2 : List ChangeEvent) (k : String) :
    eventsFor (l1 ++ l2) k = eventsFor l1 k ++ eventsFor l2 k := by
  unfold eventsFor
  exact List.filter_append ..

theorem eventsFor_filterMap (l : List (String × String))
    (f : String × String → Option ChangeEvent)
    (hk : ∀ kv e, f kv = some e → e.key = kv.1) (k : String) :
    eventsFor (l.filterMap f) k = (l.filter (fun kv => kv.1 == k)).filterMap f := by
  induction l with
  | nil => rfl
  | cons kv l ih =>
    rw [List.filter_cons]
    cases hf : f kv with
    | none =>
      rw [List.filterMap_cons_none hf]
      by_cases hkk : kv.1 = k
      · have hb : (kv.1 == k) = true := by simp [hkk]
        rw [hb]
        simp only [if_true]
        rw [List.filterMap_cons_none hf]
        exact ih
      · have hb : (kv.1 == k) = false := by simp [hkk]
        rw [hb]
        simp only [Bool.false_eq_true, if_false]
        exact ih
    | some e =>
      rw [List.filterMap_cons_some hf]
      have hek : e.key = kv.1 := hk kv e hf
      by_cases hkk : kv.1 = k
      · have hb : (kv.1 == k) = true := by simp [hkk]
        have he : (e.key == k) = true := by simp [hek, hkk]
        rw [hb]
        simp only [if_true]
        rw [List.filterMap_cons_some hf]
        unfold eventsFor
        rw [List.filter_cons, he]
        simp only [if_true]
        exact congrArg (e :: ·) ih
      · have hb : (kv.1 == k) = false := by simp [hkk]
        have he : (e.key == k) = false := by simp [hek, hkk]
        rw [hb]
        simp only [Bool.false_eq_true, if_false]
        unfold eventsFor
        rw [List.filter_cons, he]
        simp only [Bool.false_eq_true, if_false]
        exact ih

theorem classify_eventsFor (h d a : String) (b aft : List (String × String))
    (hb : (snapKeys b).Nodup) (ha : (snapKeys aft).Nodup) (k : String) :
    eventsFor (classify h d a b aft) k =
      (match snapLookup b k, snapLookup aft k with
       | none, some _ => [⟨h, d, a, k, "added"⟩]
       | some vb, some va =>
         if vb ≠ va then [⟨h, d, a, k, "changed from " ++ vb ++ " to " ++ va⟩]
         else []
       | some _, none => [⟨h, d, a, k, "removed"⟩]
       | none, none => []) := by
  unfold classify
  rw [eventsFor_append,
    eventsFor_filterMap aft _ (fun kv e he => (eventOfAfter_shape h d a b kv e he).2) k,
    eventsFor_filterMap b _ (fun kv e he => (eventOfBefore_shape h d a aft kv e he).2.1) k,
    filter_fst_of_nodup aft ha k, filter_fst_of_nodup b hb k]
  cases hB : snapLookup b k with
  | none =>
    cases hA : snapLookup aft k with
    | none => simp
    | some va => simp [eventOfAfter, eventOfBefore, hA, hB]
  | some vb =>
    cases hA : snapLookup aft k with
    | none => simp [eventOfAfter, eventOfBefore, hA, hB]
    | some va =>
      by_cases hv : vb = va
      · subst hv
        simp [eventOfAfter, eventOfBefore, hA, hB]
      · simp [eventOfAfter, eventOfBefore, hA, hB, hv]

/-! ## Dict semantics of the parser -/

theorem snapLookup_cons (p : String × String) (m : List (String × String))
    (k : String) :
    snapLookup (p :: m) k = if p.1 = k then some p.2 else snapLookup m k := by
  by_cases h : p.1 = k
  · simp [snapLookup, List.find?_cons, h]
  · simp [snapLookup, List.find?_cons, h]

theorem snapLookup_dictInsert (m : List (String × String)) (k' v k : String) :
    snapLookup (dictInsert m k' v) k = if k' = k then some v else snapLookup m k := by
  induction m with
  | nil =>
    show snapLookup [(k', v)] k = _
    rw [snapLookup_cons]
  | cons p m ih =>
    unfold dictInsert
    by_cases hpk : p.1 = k'
    · rw [if_pos hpk, snapLookup_cons, snapLookup_cons]
      by_cases hk : k' = k
      · simp [hk]
      · simp [hpk, hk]
    · rw [if_neg hpk, snapLookup_cons, snapLookup_cons, ih]
      by_cases hpkk : p.1 = k
      · have hk : ¬ k' = k := fun hc => hpk (hpkk.trans hc.symm)
        rw [if_pos hpkk, if_pos hpkk, if_neg hk]
      · rw [if_neg hpkk, if_neg hpkk]

theorem snapLookup_foldl_dictInsert (l : List (String × String))
    (m0 : List (String × String)) (k : String) :
    snapLookup (l.foldl (fun m kv => dictInsert m kv.1 kv.2) m0) k =
      (match l.reverse.find? (fun kv => kv.1 == k) with
       | some kv => some kv.2
       | none => snapLookup m0 k) := by
  induction l generalizing m0 with
  | nil => simp
  | cons kv l ih =>
    rw [List.foldl_cons, ih, List.reverse_cons, List.find?_append]
    cases hf : l.reverse.find? (fun kv => kv.1 == k) with
    | some kv' => simp [Option.or]
    | none =>
      simp only [Option.none_or]
      rw [snapLookup_dictInsert]
      by_cases hk : kv.1 = k
      · simp [List.find?_cons, hk]
      · simp [List.find?_cons, hk]

theorem foldl_blockEntry_eq (l : List (List Char)) (m0 : List (String × String)) :
    l.foldl (fun deps block =>
      match blockEntry block with
      | some kv => dictInsert deps kv.1 kv.2
      | none => deps) m0 =
    (l.filterMap blockEntry).foldl (fun deps kv => dictInsert deps kv.1 kv.2) m0 := by
  induction l generalizing m0 with
  | nil => rfl
  | cons b l ih =>
    cases hb : blockEntry b with
    | none =>
      rw [List.foldl_cons, List.filterMap_cons_none hb]
      simp only [hb]
      exact ih _
    | some kv =>
      rw [List.foldl_cons, List.filterMap_cons_some hb, List.foldl_cons]
      simp only [hb]
      exact ih _

theorem parse_eq_entries (s : String) :
    parseDependencyBlocks (some s) =
      (parseEntries s).foldl (fun m kv => dictInsert m kv.1 kv.2) [] := by
  simp only [parseDependencyBlocks, parseEntries]
  by_cases hs : (pyStrip s.data).isEmpty
  · rw [if_pos hs, if_pos hs]
    rfl
  · rw [if_neg hs, if_neg hs, foldl_blockEntry_eq]

theorem mem_dictInsert (m : List (String × String)) (k v : String)
    (x : String × String) (hx : x ∈ dictInsert m k v) : x ∈ m ∨ x = (k, v) := by
  induction m with
  | nil => simpa [dictInsert] using hx
  | cons p m ih =>
    unfold dictInsert at hx
    by_cases hpk : p.1 = k
    · rw [if_pos hpk] at hx
      rcases List.mem_cons.mp hx with rfl | hx
      · exact Or.inr rfl
      · exact Or.inl (List.mem_cons.mpr (Or.inr hx))
    · rw [if_neg hpk] at hx
      rcases List.mem_cons.mp hx with rfl | hx
      · exact Or.inl (List.mem_cons.mpr (Or.inl rfl))
      · rcases ih hx with h | h
        · exact Or.inl (List.mem_cons.mpr (Or.inr h))
        · exact Or.inr h

theorem mem_foldl_dictInsert (l : List (String × String))
    (m0 : List (String × String)) (x : String × String)
    (hx : x ∈ l.foldl (fun m kv => dictInsert m kv.1 kv.2) m0) :
    x ∈ m0 ∨ x ∈ l := by
  induction l generalizing m0 with
  | nil => exact Or.inl hx
  | cons kv l ih =>
    rw [List.foldl_cons] at hx
    rcases ih _ hx with h | h
    · rcases mem_dictInsert _ _ _ _ h with h2 | h2
      · exact Or.inl h2
      · right
        rw [h2]
        exact List.mem_cons_self _ _
    · exact Or.inr (List.mem_cons.mpr (Or.inr h))

theorem mem_parse (t : Option String) (k v : String)
    (h : (k, v) ∈ parseDependencyBlocks t) :
    ∃ s, t = some s ∧ ∃ b ∈ findAllBlocks s.data, blockEntry b = some (k, v) := by
  cases t with
  | none => simp [parseDependencyBlocks] at h
  | some s =>
    refine ⟨s, rfl, ?_⟩
    simp only [parseDependencyBlocks] at h
    split at h
    · simp at h
    · rw [foldl_blockEntry_eq] at h
      rcases mem_foldl_dictInsert _ _ _ h with h2 | h2
      · simp at h2
      · simpa using List.mem_filterMap.mp h2

theorem blockEntry_some_shape (b : List Char) (k v : String)
    (h : blockEntry b = some (k, v)) :
    ∃ gc ac vc,
      searchTag groupOpenTag groupCloseTag b = some gc ∧
      searchTag artifactOpenTag artifactCloseTag b = some ac ∧
      searchTag versionOpenTag versionCloseTag b = some vc ∧
      k = mkKey (strS gc) (strS ac) ∧ v = strS vc := by
  unfold blockEntry at h
  cases hg : searchTag groupOpenTag groupCloseTag b <;>
    cases ha2 : searchTag artifactOpenTag artifactCloseTag b <;>
      cases hv : searchTag versionOpenTag versionCloseTag b <;>
        rw [hg, ha2, hv] at h <;>
          simp only [Option.some.injEq, Prod.mk.injEq, reduceCtorEq] at h
  exact ⟨_, _, _, rfl, rfl, rfl, h.1.symm, h.2.symm⟩

theorem blockEntry_none_of_noVersion (b : List Char)
    (hv : searchTag versionOpenTag versionCloseTag b = none) :
    blockEntry b = none := by
  unfold blockEntry
  cases hg : searchTag groupOpenTag groupCloseTag b <;>
    cases ha2 : searchTag artifactOpenTag artifactCloseTag b <;>
      rw [hv]

/-! ## Properties of the captured values -/

theorem searchTag_no_lt (tagO tagC : List Char) (s cap : List Char)
    (h : searchTag tagO tagC s = some cap) : ∀ x ∈ cap, x ≠ '<' := by
  induction s with
  | nil => simp [searchTag] at h
  | cons c rest ih =>
    simp only [searchTag] at h
    split at h
    · split at h
      · cases h
        intro x hx
        have hx2 := List.mem_takeWhile_imp hx
        simpa using hx2
      · exact ih h
    · exact ih h

theorem dropWhile_twice (p : Char → Bool) (l : List Char) :
    (l.dropWhile p).dropWhile p = l.dropWhile p := by
  induction l with
  | nil => rfl
  | cons c t ih =>
    by_cases hc : p c
    · rw [List.dropWhile_cons, if_pos hc]
      exact ih
    · rw [List.dropWhile_cons, if_neg hc, List.dropWhile_cons, if_neg hc]

theorem dropWhile_eq_self_mono (p : Char → Bool) (x y : List Char)
    (hxy : x <+: y) (hy : y.dropWhile p = y) : x.dropWhile p = x := by
  cases x with
  | nil => rfl
  | cons c t =>
    obtain ⟨r, hr⟩ := hxy
    by_cases hc : p c
    · exfalso
      rw [← hr, List.cons_append, List.dropWhile_cons, if_pos hc] at hy
      rw [List.cons_append] at hr
      have hle : ((t ++ r).dropWhile p).length ≤ (t ++ r).length :=
        (List.dropWhile_suffix p).length_le
      rw [hy] at hle
      simp at hle
    · rw [List.dropWhile_cons, if_neg hc]

theorem pyStrip_no_leading (l : List Char) :
    (pyStrip l).dropWhile pySpace = pyStrip l := by
  refine dropWhile_eq_self_mono pySpace _ (l.dropWhile pySpace) ?_ (dropWhile_twice ..)
  have hsuf : (l.dropWhile pySpace).reverse.dropWhile pySpace <:+
      (l.dropWhile pySpace).reverse := List.dropWhile_suffix _
  have hp := List.reverse_prefix.mpr hsuf
  rw [List.reverse_reverse] at hp
  exact hp

theorem pyStrip_no_trailing (l : List Char) :
    (pyStrip l).reverse.dropWhile pySpace = (pyStrip l).reverse := by
  unfold pyStrip
  rw [List.reverse_reverse]
  exact dropWhile_twice ..

theorem pyStrip_subset (l : List Char) (x : Char) (hx : x ∈ pyStrip l) : x ∈ l := by
  unfold pyStrip at hx
  rw [List.mem_reverse] at hx
  have h2 := (List.dropWhile_suffix pySpace).subset hx
  rw [List.mem_reverse] at h2
  exact (List.dropWhile_suffix pySpace).subset h2

theorem mkKey_right_inj (g a1 a2 : String) (h : mkKey g a1 = mkKey g a2) :
    a1 = a2 := by
  have hd : (g ++ ":").data ++ a1.data = (g ++ ":").data ++ a2.data :=
    congrArg String.data h
  have hdd := List.append_cancel_left hd
  cases a1
  cases a2
  exact congrArg String.mk (by simpa using hdd)

theorem changed_ne_short (x y z : String) (hz : z.length < 17) :
    ("changed from " ++ x ++ " to " ++ y) ≠ z := by
  intro h
  have hl := congrArg String.length h
  rw [String.length_append, String.length_append, String.length_append] at hl
  have h13 : ("changed from ").length = 13 := rfl
  have h4 : (" to ").length = 4 := rfl
  omega

/-! ## The claims -/

/-- Claim C1, counterexample: the manifest of Scenario 4 — a dependency
block with a groupId and an artifactId but no version tag — produces a
snapshot WITHOUT the key `g:a` (the operative parser requires all three of
`g`, `a` and `v` to match before it stores an entry), contradicting the
claim that the snapshot contains the key with a null version. -/
theorem claim_C1_counterexample :
    snapLookup (parseDependencyBlocks
      (some "<dependency><groupId>g</groupId><artifactId>a</artifactId></dependency>"))
      "g:a" = none := by
  decide

/-- Claim C1, amended: a dependency block whose version tag does not match
is discarded by the operative parser; in particular a manifest text all of
whose dependency blocks lack a version yields an EMPTY snapshot, and no
exception is raised (the parser is a total function). -/
theorem claim_C1_amended (s : String)
    (hnov : ∀ b ∈ findAllBlocks s.data,
      searchTag versionOpenTag versionCloseTag b = none) :
    parseDependencyBlocks (some s) = [] := by
  rw [parse_eq_entries]
  have hent : parseEntries s = [] := by
    unfold parseEntries
    split
    · rfl
    · rw [List.filterMap_eq_nil_iff]
      intro b hb
      exact blockEntry_none_of_noVersion b (hnov b hb)
  rw [hent]
  rfl

/-- Concrete instance of the amended claim C1 at the Scenario 4 manifest. -/
theorem claim_C1_witness :
    parseDependencyBlocks
      (some "<dependency><groupId>g</groupId><artifactId>a</artifactId></dependency>") = [] :=
  claim_C1_amended _ (by decide)

/-- Claim C2, counterexample: a commit whose only modified file sits at
path `sub/pom.xml` (same basename, different directory) contributes an
event, because the miner compares PyDriller's `filename` (the basename)
against `pom.xml`, not the full path. -/
theorem claim_C2_counterexample :
    (mine_repository [Commit.mk "h1" "2020-01-01" "alice"
      [MFile.mk "sub/pom.xml" none
        (some "<dependency><groupId>g</groupId><artifactId>a</artifactId><version>1.0</version></dependency>")]]).rows
      ≠ [] := by
  decide

/-- Claim C2, amended: a modified file is parsed and classified exactly
when its basename (PyDriller's `filename`) equals `pom.xml`: the
accumulated rows are precisely the per-file classifications gated on
`filenameOf`, and the basename of `sub/pom.xml` does equal `pom.xml`, so
such a file IS processed. -/
theorem claim_C2_amended :
    (∀ commits, (mine_repository commits).rows = mineRows commits) ∧
    filenameOf "sub/pom.xml" = "pom.xml" :=
  ⟨mine_rows, by decide⟩

/-- Claim C3: for any two snapshots with unique keys (every Python dict
satisfies this) and any key, the classifier's events for that key are
exactly one of: a single `added` event (key only in `after`), a single
`changed from X to Y` event (key in both, versions differ), a single
`removed` event (key only in `before`), or no event at all (key in both
with equal versions, or in neither). -/
theorem claim_C3 (before after : List (String × String))
    (hb : (snapKeys before).Nodup) (ha : (snapKeys after).Nodup)
    (h d a k : String) :
    eventsFor (classify h d a before after) k =
      (match snapLookup before k, snapLookup after k with
       | none, some _ => [⟨h, d, a, k, "added"⟩]
       | some vb, some va =>
         if vb ≠ va then [⟨h, d, a, k, "changed from " ++ vb ++ " to " ++ va⟩]
         else []
       | some _, none => [⟨h, d, a, k, "removed"⟩]
       | none, none => []) :=
  classify_eventsFor h d a before after hb ha k

/-- Concrete instance of claim C3: Scenario 2, a version change from 1.0
to 2.0 produces exactly the one `changed` event. -/
theorem claim_C3_witness :
    eventsFor (classify "h1" "2020" "alice"
        [("org.a:lib", "1.0")] [("org.a:lib", "2.0")]) "org.a:lib"
      = [⟨"h1", "2020", "alice", "org.a:lib", "changed from 1.0 to 2.0"⟩] :=
  (claim_C3 [("org.a:lib", "1.0")] [("org.a:lib", "2.0")]
    (by decide) (by decide) "h1" "2020" "alice" "org.a:lib").trans (by decide)

/-- Claim C4: every accumulated event comes from some commit/file pair of
the traversal, its key lies in the before- or after-snapshot of that very
pair, and the touched-commit set is exactly the set of commit hashes
appearing in at least one accumulated event. -/
theorem claim_C4 (commits : List Commit) :
    (∀ e ∈ (mine_repository commits).rows,
      ∃ c ∈ commits, ∃ f ∈ c.modified_files,
        filenameOf f.path = "pom.xml" ∧
        e ∈ classify c.hash c.author_date c.author_name
            (parseDependencyBlocks f.source_code_before)
            (parseDependencyBlocks f.source_code) ∧
        (e.key ∈ snapKeys (parseDependencyBlocks f.source_code_before) ∨
         e.key ∈ snapKeys (parseDependencyBlocks f.source_code))) ∧
    (∀ x, x ∈ (mine_repository commits).seen ↔
      ∃ e ∈ (mine_repository commits).rows, e.hash = x) := by
  constructor
  · intro e he
    rw [mine_rows] at he
    unfold mineRows at he
    obtain ⟨c, hc, hcr⟩ := List.mem_flatMap.mp he
    unfold commitRows at hcr
    obtain ⟨f, hf, hfr⟩ := List.mem_flatMap.mp hcr
    unfold fileRows at hfr
    split at hfr
    · rename_i hname
      exact ⟨c, hc, f, hf, hname, hfr, classify_key_mem _ _ _ _ _ _ hfr⟩
    · simp at hfr
  · intro x
    rw [mine_rows]
    exact mine_seen_mem commits x

/-- Concrete instance of claim C4: the `added` event of a single-commit
run is traced back to its generating commit/file pair. -/
theorem claim_C4_witness :
    ∃ c ∈ [Commit.mk "h1" "2020" "alice"
        [MFile.mk "pom.xml" none
          (some "<dependency><groupId>g</groupId><artifactId>a</artifactId><version>1.0</version></dependency>")]],
      ∃ f ∈ c.modified_files,
        filenameOf f.path = "pom.xml" ∧
        (ChangeEvent.mk "h1" "2020" "alice" "g:a" "added") ∈
          classify c.hash c.author_date c.author_name
            (parseDependencyBlocks f.source_code_before)
            (parseDependencyBlocks f.source_code) ∧
        ((ChangeEvent.mk "h1" "2020" "alice" "g:a" "added").key ∈
            snapKeys (parseDependencyBlocks f.source_code_before) ∨
         (ChangeEvent.mk "h1" "2020" "alice" "g:a" "added").key ∈
            snapKeys (parseDependencyBlocks f.source_code)) :=
  (claim_C4 [Commit.mk "h1" "2020" "alice"
      [MFile.mk "pom.xml" none
        (some "<dependency><groupId>g</groupId><artifactId>a</artifactId><version>1.0</version></dependency>")]]).1
    (ChangeEvent.mk "h1" "2020" "alice" "g:a" "added") (by decide)

/-- Claim C5: the operative parser is total by construction (every Lean
definition here is a total function of the input text); `None` and the
empty text yield the empty snapshot, classifying two empty snapshots emits
no event, and running the two classification loops on two empty snapshots
leaves the whole mining state — including the touched-commit set —
unchanged. -/
theorem claim_C5 :
    parseDependencyBlocks none = [] ∧
    parseDependencyBlocks (some "") = [] ∧
    (∀ h d a, classify h d a [] [] = []) ∧
    (∀ h d a st, processPair h d a st [] [] = st) :=
  ⟨rfl, rfl, fun _ _ _ => rfl, fun _ _ _ _ => rfl⟩

/-- Claim C6: the snapshot's value for a key is the version of the LAST
block in document order that yields this key — Python dict assignment
overwrites earlier entries. -/
theorem claim_C6 (s k : String) :
    snapLookup (parseDependencyBlocks (some s)) k = lastEntryVal (parseEntries s) k := by
  rw [parse_eq_entries, snapLookup_foldl_dictInsert]
  unfold lastEntryVal
  cases hf : (parseEntries s).reverse.find? (fun kv => kv.1 == k) with
  | some kv => simp
  | none => simp [snapLookup]

/-- Claim C7: classifying (A, B) and (B, A) yields complementary
directions on every key: `added` one way is `removed` the other way, and
`changed from X to Y` one way is `changed from Y to X` the other way. -/
theorem claim_C7 (A B : List (String × String))
    (hA : (snapKeys A).Nodup) (hB : (snapKeys B).Nodup) (h d a k : String) :
    (eventsFor (classify h d a A B) k = [⟨h, d, a, k, "added"⟩] ↔
      eventsFor (classify h d a B A) k = [⟨h, d, a, k, "removed"⟩]) ∧
    (∀ x y, snapLookup A k = some x → snapLookup B k = some y →
      (eventsFor (classify h d a A B) k =
          [⟨h, d, a, k, "changed from " ++ x ++ " to " ++ y⟩] ↔
        eventsFor (classify h d a B A) k =
          [⟨h, d, a, k, "changed from " ++ y ++ " to " ++ x⟩])) := by
  have hAB := classify_eventsFor h d a A B hA hB k
  have hBA := classify_eventsFor h d a B A hB hA k
  have hra : ("removed" : String) ≠ "added" := by decide
  have har : ("added" : String) ≠ "removed" := by decide
  constructor
  · rw [hAB, hBA]
    cases hLA : snapLookup A k with
    | none =>
      cases hLB : snapLookup B k with
      | none => simp
      | some vb => simp
    | some va =>
      cases hLB : snapLookup B k with
      | none => simp [hra, har]
      | some vb =>
        by_cases hv : va = vb
        · subst hv
          simp
        · have h1 := changed_ne_short va vb "added" (by decide)
          have h2 := changed_ne_short vb va "removed" (by decide)
          simp [hv, Ne.symm hv, h1, h2]
  · intro x y hx hy
    rw [hAB, hBA]
    simp only [hx, hy]
    by_cases hxy : x = y
    · subst hxy
      simp
    · simp [hxy, Ne.symm hxy]

/-- Concrete instance of claim C7: `added` in the forward direction is
`removed` in the reverse direction. -/
theorem claim_C7_witness :
    (eventsFor (classify "h1" "2020" "alice" [] [("org.a:lib", "1.0")]) "org.a:lib"
        = [⟨"h1", "2020", "alice", "org.a:lib", "added"⟩] ↔
      eventsFor (classify "h1" "2020" "alice" [("org.a:lib", "1.0")] []) "org.a:lib"
        = [⟨"h1", "2020", "alice", "org.a:lib", "removed"⟩]) :=
  (claim_C7 [] [("org.a:lib", "1.0")] (by decide) (by decide)
    "h1" "2020" "alice" "org.a:lib").1

/-- Claim C8: the accumulated rows are the concatenation, in commit
traversal order, of the per-commit (and, inside a commit, per-file) event
lists; and within one commit/file pair the classification splits as a
first segment of events whose keys lie in the after-snapshot (`added` or
`changed ...`) followed by a second segment of `removed` events for keys
unique to the before-snapshot. -/
theorem claim_C8 :
    (∀ commits, (mine_repository commits).rows = mineRows commits) ∧
    (∀ h d a (before after : List (String × String)),
      ∃ l1 l2, classify h d a before after = l1 ++ l2 ∧
        (∀ e ∈ l1, e.key ∈ snapKeys after ∧
          (e.change = "added" ∨
            ∃ x y, e.change = "changed from " ++ x ++ " to " ++ y)) ∧
        (∀ e ∈ l2, e.key ∈ snapKeys before ∧ e.key ∉ snapKeys after ∧
          e.change = "removed")) := by
  constructor
  · exact mine_rows
  · intro h d a before after
    refine ⟨after.filterMap (eventOfAfter h d a before),
            before.filterMap (eventOfBefore h d a after), rfl, ?_, ?_⟩
    · intro e he
      obtain ⟨kv, hkv, hsome⟩ := List.mem_filterMap.mp he
      have hshape := eventOfAfter_shape h d a before kv e hsome
      refine ⟨hshape.2 ▸ List.mem_map_of_mem _ hkv, ?_⟩
      unfold eventOfAfter at hsome
      split at hsome
      · cases hsome
        exact Or.inl rfl
      · split at hsome
        · cases hsome
          exact Or.inr ⟨_, _, rfl⟩
        · cases hsome
    · intro e he
      obtain ⟨kv, hkv, hsome⟩ := List.mem_filterMap.mp he
      have hshape := eventOfBefore_shape h d a after kv e hsome
      refine ⟨hshape.2.1 ▸ List.mem_map_of_mem _ hkv, ?_, hshape.2.2⟩
      unfold eventOfBefore at hsome
      split at hsome
      · rename_i hnone
        cases hsome
        exact (snapLookup_eq_none after kv.1).mp hnone
      · cases hsome

/-- Concrete instance of claim C8: the single-commit rows equal the
flattened per-commit rows. -/
theorem claim_C8_witness :
    (mine_repository [Commit.mk "h1" "2020" "alice"
        [MFile.mk "pom.xml" none
          (some "<dependency><groupId>g</groupId><artifactId>a</artifactId><version>1.0</version></dependency>")]]).rows
      = mineRows [Commit.mk "h1" "2020" "alice"
        [MFile.mk "pom.xml" none
          (some "<dependency><groupId>g</groupId><artifactId>a</artifactId><version>1.0</version></dependency>")]] :=
  claim_C8.1 _

/-- Claim C9: every key in a parsed snapshot has the exact shape
group + ":" + artifact for the stripped captures of some block of the
text; and the key constructor is injective in the artifact for a fixed
group, so two declarations with the same group but different artifacts
never collapse. -/
theorem claim_C9 :
    (∀ (s k v : String), (k, v) ∈ parseDependencyBlocks (some s) →
      ∃ b ∈ findAllBlocks s.data, ∃ gc ac,
        searchTag groupOpenTag groupCloseTag b = some gc ∧
        searchTag artifactOpenTag artifactCloseTag b = some ac ∧
        k = mkKey (strS gc) (strS ac)) ∧
    (∀ g a1 a2 : String, mkKey g a1 = mkKey g a2 → a1 = a2) := by
  constructor
  · intro s k v hmem
    obtain ⟨s', hs', b, hb, hbe⟩ := mem_parse (some s) k v hmem
    have hss : s' = s := (Option.some.inj hs').symm
    subst hss
    obtain ⟨gc, ac, vc, hg, ha2, hv, hk, hvv⟩ := blockEntry_some_shape b k v hbe
    exact ⟨b, hb, gc, ac, hg, ha2, hk⟩
  · exact mkKey_right_inj

/-- Concrete instance of claim C9 at a one-block manifest, plus the
trivially discharged injectivity instance. -/
theorem claim_C9_witness :
    (∃ b ∈ findAllBlocks ("<dependency><groupId>g</groupId><artifactId>a</artifactId><version>1.0</version></dependency>" : String).data,
      ∃ gc ac,
        searchTag groupOpenTag groupCloseTag b = some gc ∧
        searchTag artifactOpenTag artifactCloseTag b = some ac ∧
        "g:a" = mkKey (strS gc) (strS ac)) ∧ ("lib" : String) = "lib" :=
  ⟨claim_C9.1 "<dependency><groupId>g</groupId><artifactId>a</artifactId><version>1.0</version></dependency>"
      "g:a" "1.0" (by decide),
   claim_C9.2 "g" "lib" "lib" rfl⟩

/-- Claim C10, counterexample: a whitespace-only version tag matches
`[^<]+`, and stripping the capture leaves the EMPTY string, so a snapshot
version can be empty — contradicting the claim that every version is
non-empty. -/
theorem claim_C10_counterexample :
    parseDependencyBlocks
      (some "<dependency><groupId>g</groupId><artifactId>a</artifactId><version> </version></dependency>")
      = [("g:a", "")] := by
  decide

/-- Claim C10, amended: every version value of the operative tolerant-scan
parser is a string (hence never null — the Python value is always
`v.group(1).strip()`), possibly empty, with no leading or trailing
whitespace and containing no `<` character; consequently no change
description ever renders a null before- or after-version for snapshots of
this parser. -/
theorem claim_C10_amended (t : Option String) (k v : String)
    (hmem : (k, v) ∈ parseDependencyBlocks t) :
    v.data.dropWhile pySpace = v.data ∧
    v.data.reverse.dropWhile pySpace = v.data.reverse ∧
    '<' ∉ v.data := by
  obtain ⟨s, hts, b, hb, hbe⟩ := mem_parse t k v hmem
  obtain ⟨gc, ac, vc, hg, ha2, hv, hk, hvv⟩ := blockEntry_some_shape b k v hbe
  subst hvv
  refine ⟨pyStrip_no_leading vc, pyStrip_no_trailing vc, ?_⟩
  intro hlt
  have hvc := pyStrip_subset vc '<' hlt
  exact searchTag_no_lt _ _ b vc hv '<' hvc rfl

/-- Concrete instance of the amended claim C10 at a one-block manifest. -/
theorem claim_C10_witness :
    ("1.0" : String).data.dropWhile pySpace = ("1.0" : String).data ∧
    ("1.0" : String).data.reverse.dropWhile pySpace = ("1.0" : String).data.reverse ∧
    '<' ∉ ("1.0" : String).data :=
  claim_C10_amended
    (some "<dependency><groupId>g</groupId><artifactId>a</artifactId><version>1.0</version></dependency>")
    "g:a" "1.0" (by decide)

end DependencyMiner
